import Mathlib

/-!
Verification of the CAD-boundary-to-point-cloud pipeline.

The development shallowly embeds the core of the repository
`cad_boundary_to_cc` in Lean 4 and proves the specification's claims
about it:

* `ZAssign`  — the uniform-grid spatial index, neighbor query and
  quantile-based Z assignment of `z_assign.py`
  (`_surface_z_from_neighbors_grid`, `surface_z_from_neighbors`);
* `CloudLas` — the bounded in-bbox LAS reader of `cloud_las.py`
  (`read_las_points_in_bbox`);
* `Pipeline` — the merged-cloud array logic of `pipeline.py`
  (`_write_combined_las_with_cad_points`);
* `Densify`  — the polyline densifier of `densify.py`
  (`densify_polyline`).

Coordinates are embedded as exact rationals where the code only adds,
multiplies, divides, floors and compares (the spatial index and the
reader), and as real numbers where the code takes square roots (the
densifier, which calls `math.hypot`).  NumPy's wrapping integer casts
(`astype(np.int32)`, int64 shifts) are modelled exactly as wrapping
arithmetic on `ℤ`.
-/

namespace CadToCloud

/-! ### Planar geometry over exact rationals -/

/-- A cloud point `(x, y, z)` (row of `cloud_xyz`). -/
abbrev P3 := ℚ × ℚ × ℚ

/-- The planar part of a cloud point (`cloud_xyz[:, :2]`). -/
def xyOf (p : P3) : ℚ × ℚ := (p.1, p.2.1)

/-- Squared planar distance, `ddx*ddx + ddy*ddy` in the source. -/
def dist2 (a b : ℚ × ℚ) : ℚ := (a.1 - b.1) ^ 2 + (a.2 - b.2) ^ 2

namespace ZAssign

/-! ### The uniform grid index of `_surface_z_from_neighbors_grid`

`z_assign.py` lines 70–96: cloud points are hashed to 32-bit cell
coordinates `ix = floor(x/cell).astype(np.int32)` (and likewise `iy`),
packed into a sortable int64 key
`(ix.astype(np.int64) << 32) ^ (iy.astype(np.int64) & 0xFFFFFFFF)`.
The query side (lines 104–113) computes its keys from Python ints via
`(np.int64(cx + dx) << 32) ^ (np.int64(cy + dy) & 0xFFFFFFFF)`.
Both of these are modelled exactly, including the wrap-around of the
`int32`/`int64` casts and shifts. -/

/-- Wrap an integer into the `int32` range, as `astype(np.int32)` does. -/
def wrap32 (n : ℤ) : ℤ := (n + 2 ^ 31) % 2 ^ 32 - 2 ^ 31

/-- Wrap an integer into the `int64` range (numpy int64 overflow). -/
def wrap64 (n : ℤ) : ℤ := (n + 2 ^ 63) % 2 ^ 64 - 2 ^ 63

/-- The 64-bit two's-complement bit pattern of an integer. -/
def bits64 (n : ℤ) : ℕ := (n % 2 ^ 64).toNat

/-- Key of a cloud point's cell: `(ix.astype(np.int64) << 32) ^
(iy.astype(np.int64) & 0xFFFFFFFF)` with `ix`, `iy` already wrapped to
`int32` (`z_assign.py` lines 82–84).  Shifts and xor act on the 64-bit
bit patterns. -/
def cellKeyCloud (ix iy : ℤ) : ℤ :=
  wrap64 (Int.ofNat
    (bits64 (wrap64 (wrap32 ix * 2 ^ 32)) ^^^ (bits64 (wrap32 iy) &&& 0xFFFFFFFF)))

/-- Key the query loop builds for cell `(cx, cy)`:
`(np.int64(cx) << 32) ^ (np.int64(cy) & 0xFFFFFFFF)` (`z_assign.py`
line 110), where `cx`, `cy` are exact Python ints cast to `int64`. -/
def cellKeyQuery (cx cy : ℤ) : ℤ :=
  wrap64 (Int.ofNat
    (bits64 (wrap64 (wrap64 cx * 2 ^ 32)) ^^^ (bits64 (wrap64 cy) &&& 0xFFFFFFFF)))

/-- Grid cell of a planar point: `(floor(x/cell), floor(y/cell))` with
`cell = r` (`z_assign.py` lines 80–83 and 104–105). -/
def cellOf (r : ℚ) (a : ℚ × ℚ) : ℤ × ℤ := (⌊a.1 / r⌋, ⌊a.2 / r⌋)

/-- The int64 key a cloud point is stored under. -/
def pointKey (r : ℚ) (p : P3) : ℤ :=
  cellKeyCloud (cellOf r (xyOf p)).1 (cellOf r (xyOf p)).2

/-- `_cell_indices(kkey)` (`z_assign.py` lines 90–96): the set of cloud
indices stored under key `kkey`.  The source retrieves them through an
argsort of the key array plus `np.unique`/`searchsorted`; the net result
is exactly the indices whose key equals `kkey` (in some order — all
claims about the query are set-level). -/
def cellIndices (cloud : List P3) (r : ℚ) (key : ℤ) : List ℕ :=
  (List.range cloud.length).filter fun j => decide (pointKey r (cloud.getD j (0, 0, 0)) = key)

/-- The nine `(dx_cell, dy_cell)` offsets, in the loop order of
`z_assign.py` lines 108–109. -/
def offsets : List (ℤ × ℤ) :=
  [(-1, -1), (-1, 0), (-1, 1), (0, -1), (0, 0), (0, 1), (1, -1), (1, 0), (1, 1)]

/-- Candidate indices gathered from the 3×3 cell neighborhood of the
query point (`z_assign.py` lines 104–113, concatenated as in line 118). -/
def gridCandidates (cloud : List P3) (r : ℚ) (s : ℚ × ℚ) : List ℕ :=
  offsets.flatMap fun o =>
    cellIndices cloud r (cellKeyQuery ((cellOf r s).1 + o.1) ((cellOf r s).2 + o.2))

/-- Squared planar distance from cloud point `j` to the sample
(`d2 = ddx*ddx + ddy*ddy`, `z_assign.py` lines 120–122). -/
def d2At (cloud : List P3) (s : ℚ × ℚ) (j : ℕ) : ℚ := dist2 (xyOf (cloud.getD j (0, 0, 0))) s

/-- The grid-based neighbor query of §4.3: candidates of the 3×3
neighborhood filtered by `d2 <= r2` (`z_assign.py` lines 118–128). -/
def neighborsWithin (cloud : List P3) (r : ℚ) (s : ℚ × ℚ) : List ℕ :=
  (gridCandidates cloud r s).filter fun j => decide (d2At cloud s j ≤ r * r)

/-- Brute-force filtering of the whole cloud on `d2 <= r2`. -/
def bruteNeighbors (cloud : List P3) (r : ℚ) (s : ℚ × ℚ) : List ℕ :=
  (List.range cloud.length).filter fun j => decide (d2At cloud s j ≤ r * r)

/-! ### Quantile and the per-sample Z value -/

/-- `np.quantile(z, q)` with the default linear interpolation method:
sort, take the virtual index `h = q*(n-1)`, and interpolate linearly
between the two adjacent order statistics (the upper index is clamped
to `n-1`). -/
def npQuantile (zs : List ℚ) (q : ℚ) : ℚ :=
  let s := zs.insertionSort (· ≤ ·)
  let n := s.length
  let h : ℚ := q * ((n : ℚ) - 1)
  let i : ℕ := (⌊h⌋).toNat
  let g : ℚ := h - (⌊h⌋ : ℚ)
  let lo := s.getD i 0
  let hi := s.getD (min (i + 1) (n - 1)) 0
  lo + (hi - lo) * g

/-- The k-cap of `z_assign.py` lines 130–132: when more than
`k_eff_max = max(1, k)` candidates lie within the radius, keep the
`k_eff_max` nearest by squared distance.  The source uses
`np.argpartition` (partial selection with arbitrary tie-breaking); the
model selects by a sort on the same key, one deterministic realisation
of that selection. -/
def selectK (cloud : List P3) (s : ℚ × ℚ) (k : ℤ) (idsIn : List ℕ) : List ℕ :=
  if (max 1 k).toNat < idsIn.length then
    (idsIn.insertionSort fun j1 j2 => d2At cloud s j1 ≤ d2At cloud s j2).take (max 1 k).toNat
  else idsIn

/-- The body of the per-sample loop of `_surface_z_from_neighbors_grid`
(`z_assign.py` lines 101–134): gather the 3×3 candidates; if none
(`if not cand`), or none within radius (`if not np.any(m)`), fall back
to `fallback_z + offset`; otherwise cap the in-radius candidates to the
`max 1 k` nearest by squared distance and return the requested quantile
of their z values plus `offset`. -/
def zForSample (cloud : List P3) (r : ℚ) (k : ℤ) (q fb off : ℚ) (s : ℚ × ℚ) : ℚ :=
  if (gridCandidates cloud r s).isEmpty then fb + off
  else if (neighborsWithin cloud r s).isEmpty then fb + off
  else
    npQuantile
      ((selectK cloud s k (neighborsWithin cloud r s)).map fun j => (cloud.getD j (0, 0, 0)).2.2)
      q + off

/-- Errors of the Z-assignment engine (`ValueError`s in the source,
named after the spec's taxonomy: the first three are `InvalidParameter`
cases, the last is the undocumented empty-cloud failure). -/
inductive ZError
  | invalidRadius
  | invalidK
  | invalidQuantile
  | emptyCloud
deriving DecidableEq

/-- `surface_z_from_neighbors` (`z_assign.py` lines 23–56): validates
`radius_m > 0`, `k > 0`, `quantile ∈ [0,1]`, then delegates to the grid
implementation, which fails on an empty cloud (line 75–76) and
otherwise maps the per-sample computation over the samples. -/
def surface_z_from_neighbors (cloud : List P3) (samples : List (ℚ × ℚ))
    (r : ℚ) (k : ℤ) (q fb off : ℚ) : Except ZError (List ℚ) :=
  if r ≤ 0 then .error .invalidRadius
  else if k ≤ 0 then .error .invalidK
  else if ¬(0 ≤ q ∧ q ≤ 1) then .error .invalidQuantile
  else if cloud.length ≤ 0 then .error .emptyCloud
  else .ok (samples.map (zForSample cloud r k q fb off))

/-! ### Basic facts about the grid index -/

theorem mem_cellIndices {cloud : List P3} {r : ℚ} {key : ℤ} {j : ℕ} :
    j ∈ cellIndices cloud r key ↔
      j < cloud.length ∧ pointKey r (cloud.getD j (0, 0, 0)) = key := by
  simp [cellIndices, List.mem_filter, List.mem_range]

theorem mem_gridCandidates {cloud : List P3} {r : ℚ} {s : ℚ × ℚ} {j : ℕ} :
    j ∈ gridCandidates cloud r s ↔ ∃ o ∈ offsets,
      j ∈ cellIndices cloud r
        (cellKeyQuery ((cellOf r s).1 + o.1) ((cellOf r s).2 + o.2)) := by
  simp [gridCandidates, List.mem_flatMap]

theorem mem_gridCandidates_lt {cloud : List P3} {r : ℚ} {s : ℚ × ℚ} {j : ℕ}
    (h : j ∈ gridCandidates cloud r s) : j < cloud.length := by
  rw [mem_gridCandidates] at h
  obtain ⟨o, _, ho⟩ := h
  exact (mem_cellIndices.mp ho).1

/-- The key built by the query loop from exact cell coordinates agrees
with the key a cloud point in that cell was stored under: the
`int32` wrap of the cloud path and the direct `int64` path differ only
in bits that the shift pushes out of the 64-bit word. -/
theorem cellKeyQuery_eq_cellKeyCloud (cx cy : ℤ) :
    cellKeyQuery cx cy = cellKeyCloud cx cy := by
  unfold cellKeyQuery cellKeyCloud
  have h1 : wrap64 (wrap64 cx * 2 ^ 32) = wrap64 (wrap32 cx * 2 ^ 32) := by
    unfold wrap64 wrap32
    omega
  have h2 : bits64 (wrap64 cy) &&& 0xFFFFFFFF = bits64 (wrap32 cy) &&& 0xFFFFFFFF := by
    have e : (0xFFFFFFFF : ℕ) = 2 ^ 32 - 1 := by norm_num
    rw [e, Nat.and_pow_two_sub_one_eq_mod, Nat.and_pow_two_sub_one_eq_mod]
    unfold bits64 wrap64 wrap32
    omega
  rw [h1, h2]

/-- A point within distance `r` of the query has its cell coordinate
within one cell of the query's, in each axis. -/
theorem floor_div_close {a b r : ℚ} (hr : 0 < r) (h : |a - b| ≤ r) :
    ⌊b / r⌋ - 1 ≤ ⌊a / r⌋ ∧ ⌊a / r⌋ ≤ ⌊b / r⌋ + 1 := by
  obtain ⟨h1, h2⟩ := abs_le.mp h
  have hrne : r ≠ 0 := ne_of_gt hr
  constructor
  · have hle : (b - r) / r ≤ a / r := (div_le_div_iff_of_pos_right hr).mpr (by linarith)
    have he : (b - r) / r = b / r - 1 := by
      field_simp
    have := Int.floor_mono hle
    rw [he, show b / r - 1 = b / r - (1 : ℤ) by norm_num, Int.floor_sub_int] at this
    omega
  · have hle : a / r ≤ (b + r) / r := (div_le_div_iff_of_pos_right hr).mpr (by linarith)
    have he : (b + r) / r = b / r + 1 := by
      field_simp
    have := Int.floor_mono hle
    rw [he, show b / r + 1 = b / r + (1 : ℤ) by norm_num, Int.floor_add_int] at this
    omega

end ZAssign

/-! ### Claim C1 — grid neighbor query equals brute force -/

/-- C1: for every cloud point set, query point and radius `r > 0`, the
set of indices returned by the grid-based neighbor query (cell size
`r`, 3×3 cell neighborhood of the query's cell, filter on squared
planar distance ≤ `r²`) equals the set returned by brute-force
filtering of the whole cloud on squared planar distance ≤ `r²`.  Over
the exact-arithmetic embedding the equality is unconditional: a
boundary tie at distance exactly `r` lands on the same side of the
`≤` in both queries. -/
theorem grid_query_eq_brute_force (cloud : List P3) (r : ℚ) (s : ℚ × ℚ) (hr : 0 < r) :
    (ZAssign.neighborsWithin cloud r s).toFinset =
      (ZAssign.bruteNeighbors cloud r s).toFinset := by
  ext j
  simp only [List.mem_toFinset]
  unfold ZAssign.neighborsWithin ZAssign.bruteNeighbors
  simp only [List.mem_filter, decide_eq_true_eq, List.mem_range]
  constructor
  · rintro ⟨hc, hd⟩
    exact ⟨ZAssign.mem_gridCandidates_lt hc, hd⟩
  · rintro ⟨hj, hd⟩
    refine ⟨?_, hd⟩
    set p := cloud.getD j (0, 0, 0) with hpdef
    have hsum : ((xyOf p).1 - s.1) ^ 2 + ((xyOf p).2 - s.2) ^ 2 ≤ r * r := by
      have := hd
      unfold ZAssign.d2At dist2 at this
      exact this
    have hdx : |(xyOf p).1 - s.1| ≤ r := by
      have h1 : ((xyOf p).1 - s.1) ^ 2 ≤ r ^ 2 := by
        nlinarith [sq_nonneg ((xyOf p).2 - s.2)]
      exact abs_le.mpr (abs_le_of_sq_le_sq' h1 hr.le)
    have hdy : |(xyOf p).2 - s.2| ≤ r := by
      have h1 : ((xyOf p).2 - s.2) ^ 2 ≤ r ^ 2 := by
        nlinarith [sq_nonneg ((xyOf p).1 - s.1)]
      exact abs_le.mpr (abs_le_of_sq_le_sq' h1 hr.le)
    obtain ⟨hx1, hx2⟩ := ZAssign.floor_div_close hr hdx
    obtain ⟨hy1, hy2⟩ := ZAssign.floor_div_close hr hdy
    rw [ZAssign.mem_gridCandidates]
    refine ⟨(⌊(xyOf p).1 / r⌋ - ⌊s.1 / r⌋, ⌊(xyOf p).2 / r⌋ - ⌊s.2 / r⌋), ?_, ?_⟩
    · have e1 : ⌊(xyOf p).1 / r⌋ - ⌊s.1 / r⌋ = -1 ∨ ⌊(xyOf p).1 / r⌋ - ⌊s.1 / r⌋ = 0 ∨
          ⌊(xyOf p).1 / r⌋ - ⌊s.1 / r⌋ = 1 := by omega
      have e2 : ⌊(xyOf p).2 / r⌋ - ⌊s.2 / r⌋ = -1 ∨ ⌊(xyOf p).2 / r⌋ - ⌊s.2 / r⌋ = 0 ∨
          ⌊(xyOf p).2 / r⌋ - ⌊s.2 / r⌋ = 1 := by omega
      rcases e1 with e1 | e1 | e1 <;> rcases e2 with e2 | e2 | e2 <;> rw [e1, e2] <;> decide
    · rw [ZAssign.mem_cellIndices]
      refine ⟨hj, ?_⟩
      have ex : (ZAssign.cellOf r s).1 + (⌊(xyOf p).1 / r⌋ - ⌊s.1 / r⌋) =
          ⌊(xyOf p).1 / r⌋ := by
        unfold ZAssign.cellOf
        ring
      have ey : (ZAssign.cellOf r s).2 + (⌊(xyOf p).2 / r⌋ - ⌊s.2 / r⌋) =
          ⌊(xyOf p).2 / r⌋ := by
        unfold ZAssign.cellOf
        ring
      rw [ex, ey, ZAssign.cellKeyQuery_eq_cellKeyCloud]
      rfl

/-- Witness for C1 on the spec's four-point example cloud with radius 6
and the query at the origin. -/
theorem grid_query_eq_brute_force_witness :
    (0 : ℚ) < 6 ∧
      (ZAssign.neighborsWithin [((0 : ℚ), 0, 1), (5, 0, 2), (10, 0, 3), (5, 0, 100)]
          6 (0, 0)).toFinset =
        (ZAssign.bruteNeighbors [((0 : ℚ), 0, 1), (5, 0, 2), (10, 0, 3), (5, 0, 100)]
          6 (0, 0)).toFinset :=
  ⟨by norm_num,
    grid_query_eq_brute_force [((0 : ℚ), 0, 1), (5, 0, 2), (10, 0, 3), (5, 0, 100)]
      6 (0, 0) (by norm_num)⟩

/-! ### Claim C9 — the assigned Z is monotone in the quantile -/

theorem sorted_getD_mono {l : List ℚ} (hs : l.Sorted (· ≤ ·)) {i j : ℕ}
    (hij : i ≤ j) (hj : j < l.length) : l.getD i 0 ≤ l.getD j 0 := by
  have hi : i < l.length := lt_of_le_of_lt hij hj
  rw [List.getD_eq_getElem?_getD, List.getD_eq_getElem?_getD,
    List.getElem?_eq_getElem hi, List.getElem?_eq_getElem hj]
  simpa using hs.rel_get_of_le (a := ⟨i, hi⟩) (b := ⟨j, hj⟩) hij

/-- Monotonicity of the linear-interpolation quantile formula along the
virtual index, for a sorted list. -/
theorem quantile_formula_mono {s : List ℚ} (hsorted : s.Sorted (· ≤ ·))
    (hn : 0 < s.length) {a b : ℚ} (h0 : 0 ≤ a) (hab : a ≤ b)
    (hub : b ≤ (s.length : ℚ) - 1) :
    s.getD (⌊a⌋).toNat 0 +
        (s.getD (min ((⌊a⌋).toNat + 1) (s.length - 1)) 0 - s.getD (⌊a⌋).toNat 0) *
          (a - (⌊a⌋ : ℚ)) ≤
      s.getD (⌊b⌋).toNat 0 +
        (s.getD (min ((⌊b⌋).toNat + 1) (s.length - 1)) 0 - s.getD (⌊b⌋).toNat 0) *
          (b - (⌊b⌋ : ℚ)) := by
  set n := s.length with hndef
  have hbnn : 0 ≤ b := le_trans h0 hab
  have hfa0 : 0 ≤ ⌊a⌋ := Int.floor_nonneg.mpr h0
  have hfb0 : 0 ≤ ⌊b⌋ := Int.floor_nonneg.mpr hbnn
  have hfab : ⌊a⌋ ≤ ⌊b⌋ := Int.floor_mono hab
  have hfbub : ⌊b⌋ ≤ (n : ℤ) - 1 := by
    have h1 : ⌊b⌋ ≤ ⌊(n : ℚ) - 1⌋ := Int.floor_mono hub
    have h2 : ⌊(n : ℚ) - 1⌋ = (n : ℤ) - 1 := by
      rw [show (n : ℚ) - 1 = (((n : ℤ) - 1 : ℤ) : ℚ) by push_cast; ring, Int.floor_intCast]
    omega
  set ia := (⌊a⌋).toNat with hiadef
  set ib := (⌊b⌋).toNat with hibdef
  have hiaub : ia ≤ n - 1 := by omega
  have hibub : ib ≤ n - 1 := by omega
  have hialt : ia < n := by omega
  have hiblt : ib < n := by omega
  have hga0 : 0 ≤ a - (⌊a⌋ : ℚ) := sub_nonneg.mpr (Int.floor_le a)
  have hgb0 : 0 ≤ b - (⌊b⌋ : ℚ) := sub_nonneg.mpr (Int.floor_le b)
  have hga1 : a - (⌊a⌋ : ℚ) < 1 := by
    have := Int.lt_floor_add_one a
    linarith
  have hloa : s.getD ia 0 ≤ s.getD (min (ia + 1) (n - 1)) 0 :=
    sorted_getD_mono hsorted (le_min (Nat.le_succ ia) hiaub) (by omega)
  have hlob : s.getD ib 0 ≤ s.getD (min (ib + 1) (n - 1)) 0 :=
    sorted_getD_mono hsorted (le_min (Nat.le_succ ib) hibub) (by omega)
  rcases eq_or_lt_of_le hfab with heq | hlt
  · -- same floor: only the fractional part grows
    have hie : ia = ib := by rw [hiadef, hibdef, heq]
    rw [← hie]
    have hgab : a - (⌊a⌋ : ℚ) ≤ b - (⌊b⌋ : ℚ) := by
      rw [← heq]
      linarith
    have := mul_le_mul_of_nonneg_left hgab (sub_nonneg.mpr hloa)
    linarith
  · -- the floor strictly increases: chain through the order statistics
    have hiab : ia + 1 ≤ ib := by omega
    have hmina : min (ia + 1) (n - 1) = ia + 1 := by omega
    have v1 : s.getD ia 0 +
        (s.getD (min (ia + 1) (n - 1)) 0 - s.getD ia 0) * (a - (⌊a⌋ : ℚ)) ≤
          s.getD (min (ia + 1) (n - 1)) 0 := by
      nlinarith [hloa, hga0, hga1]
    have v2 : s.getD (min (ia + 1) (n - 1)) 0 ≤ s.getD ib 0 := by
      rw [hmina]
      exact sorted_getD_mono hsorted hiab hiblt
    have v3 : s.getD ib 0 ≤ s.getD ib 0 +
        (s.getD (min (ib + 1) (n - 1)) 0 - s.getD ib 0) * (b - (⌊b⌋ : ℚ)) := by
      nlinarith [hlob, hgb0]
    linarith

/-- `np.quantile` is monotone in the requested quantile on `[0, 1]`. -/
theorem npQuantile_mono (zs : List ℚ) (hzs : zs ≠ []) {q1 q2 : ℚ}
    (h0 : 0 ≤ q1) (h12 : q1 ≤ q2) (h1 : q2 ≤ 1) :
    ZAssign.npQuantile zs q1 ≤ ZAssign.npQuantile zs q2 := by
  have hlen : (zs.insertionSort (· ≤ ·)).length = zs.length :=
    List.length_insertionSort _ zs
  have hn : 0 < (zs.insertionSort (· ≤ ·)).length := by
    rw [hlen]
    exact List.length_pos.mpr hzs
  have hone : (1 : ℚ) ≤ ((zs.insertionSort (· ≤ ·)).length : ℚ) := by
    exact_mod_cast hn
  simp only [ZAssign.npQuantile]
  apply quantile_formula_mono (List.sorted_insertionSort _ zs) hn
  · exact mul_nonneg h0 (by linarith)
  · exact mul_le_mul_of_nonneg_right h12 (by linarith)
  · calc q2 * (((zs.insertionSort (· ≤ ·)).length : ℚ) - 1)
        ≤ 1 * (((zs.insertionSort (· ≤ ·)).length : ℚ) - 1) :=
          mul_le_mul_of_nonneg_right h1 (by linarith)
      _ = ((zs.insertionSort (· ≤ ·)).length : ℚ) - 1 := one_mul _

theorem selectK_ne_nil (cloud : List P3) (s : ℚ × ℚ) (k : ℤ) {l : List ℕ}
    (h : l ≠ []) : ZAssign.selectK cloud s k l ≠ [] := by
  unfold ZAssign.selectK
  split
  · intro hcon
    have hlen := congrArg List.length hcon
    simp only [List.length_take, List.length_insertionSort, List.length_nil] at hlen
    omega
  · exact h

/-- C9: for a fixed cloud, sample point, radius, `k`, fallback and
offset, the assigned Z value is monotonically non-decreasing in the
quantile parameter on `[0, 1]`. -/
theorem assigned_z_mono_in_quantile (cloud : List P3) (r : ℚ) (k : ℤ) (fb off : ℚ)
    (s : ℚ × ℚ) {q1 q2 : ℚ} (h0 : 0 ≤ q1) (h12 : q1 ≤ q2) (h1 : q2 ≤ 1) :
    ZAssign.zForSample cloud r k q1 fb off s ≤
      ZAssign.zForSample cloud r k q2 fb off s := by
  unfold ZAssign.zForSample
  by_cases hce : (ZAssign.gridCandidates cloud r s).isEmpty
  · rw [if_pos hce, if_pos hce]
  · rw [if_neg hce, if_neg hce]
    by_cases hne : (ZAssign.neighborsWithin cloud r s).isEmpty
    · rw [if_pos hne, if_pos hne]
    · rw [if_neg hne, if_neg hne]
      have hsel : ZAssign.selectK cloud s k (ZAssign.neighborsWithin cloud r s) ≠ [] :=
        selectK_ne_nil cloud s k (by simpa [List.isEmpty_iff] using hne)
      have hmap : ((ZAssign.selectK cloud s k (ZAssign.neighborsWithin cloud r s)).map
          fun j => (cloud.getD j (0, 0, 0)).2.2) ≠ [] := by
        simpa [List.map_eq_nil_iff] using hsel
      exact add_le_add_right (npQuantile_mono _ hmap h0 h12 h1) off

/-- Witness for C9 with one cloud point under the sample and
`q1 = 0 ≤ q2 = 1`. -/
theorem assigned_z_mono_in_quantile_witness :
    ZAssign.zForSample [((0 : ℚ), 0, 4)] 1 1 0 0 0 (0, 0) ≤
      ZAssign.zForSample [((0 : ℚ), 0, 4)] 1 1 1 0 0 (0, 0) :=
  assigned_z_mono_in_quantile [((0 : ℚ), 0, 4)] 1 1 0 0 (0, 0)
    (by norm_num) (by norm_num) (by norm_num)

/-! ### Claim C10 — empty cloud is rejected -/

/-- C10: on an empty cloud point set the Z-assignment engine fails with
its (undocumented) empty-cloud error, even when `radius > 0`, `k > 0`
and `quantile ∈ [0,1]` all hold, for every sample list including the
empty one. -/
theorem surface_z_empty_cloud_raises (samples : List (ℚ × ℚ)) (r : ℚ) (k : ℤ)
    (q fb off : ℚ) (hr : 0 < r) (hk : 0 < k) (hq : 0 ≤ q ∧ q ≤ 1) :
    ZAssign.surface_z_from_neighbors [] samples r k q fb off = .error .emptyCloud := by
  unfold ZAssign.surface_z_from_neighbors
  rw [if_neg (not_le.mpr hr), if_neg (not_le.mpr hk), if_neg (not_not_intro hq),
    if_pos (by simp)]

/-- Witness for C10 at concrete valid parameters and an empty sample
list. -/
theorem surface_z_empty_cloud_raises_witness :
    (0 : ℚ) < 1 ∧ (0 : ℤ) < 1 ∧ ((0 : ℚ) ≤ 1 / 2 ∧ (1 : ℚ) / 2 ≤ 1) ∧
      ZAssign.surface_z_from_neighbors [] [] 1 1 (1 / 2) 3 0 = .error .emptyCloud :=
  ⟨by norm_num, by norm_num, by norm_num,
    surface_z_empty_cloud_raises [] 1 1 (1 / 2) 3 0 (by norm_num) (by norm_num) (by norm_num)⟩

/-! ### Claim C4 — fallback exactly when no neighbor within radius -/

/-- C4: with valid parameters and a non-empty cloud, a sample that has
no cloud point within the search radius is assigned exactly
`fallback_z + offset`. -/
theorem assign_z_fallback (cloud : List P3) (samples : List (ℚ × ℚ)) (r : ℚ)
    (k : ℤ) (q fb off : ℚ) (i : ℕ) (s : ℚ × ℚ)
    (hr : 0 < r) (hk : 0 < k) (hq : 0 ≤ q ∧ q ≤ 1) (hc : cloud ≠ [])
    (hi : samples[i]? = some s)
    (hfar : ∀ p ∈ cloud, r ^ 2 < dist2 (xyOf p) s) :
    ∃ out, ZAssign.surface_z_from_neighbors cloud samples r k q fb off = .ok out ∧
      out[i]? = some (fb + off) := by
  have hlen : 0 < cloud.length := List.length_pos.mpr hc
  refine ⟨samples.map (ZAssign.zForSample cloud r k q fb off), ?_, ?_⟩
  · unfold ZAssign.surface_z_from_neighbors
    rw [if_neg (not_le.mpr hr), if_neg (not_le.mpr hk), if_neg (not_not_intro hq),
      if_neg (by omega)]
  · rw [List.getElem?_map, hi, Option.map_some']
    congr 1
    unfold ZAssign.zForSample
    have hnone : ∀ j ∈ ZAssign.gridCandidates cloud r s,
        ¬ ZAssign.d2At cloud s j ≤ r * r := by
      intro j hj
      have hjl := ZAssign.mem_gridCandidates_lt hj
      have hmem : cloud.getD j (0, 0, 0) ∈ cloud := by
        rw [List.getD_eq_getElem?_getD, List.getElem?_eq_getElem hjl]
        exact List.getElem_mem hjl
      have hgt := hfar _ hmem
      unfold ZAssign.d2At
      nlinarith [hgt]
    have hempty : ZAssign.neighborsWithin cloud r s = [] := by
      unfold ZAssign.neighborsWithin
      rw [List.filter_eq_nil_iff]
      intro j hj
      simpa using hnone j hj
    by_cases hce : (ZAssign.gridCandidates cloud r s).isEmpty
    · rw [if_pos hce]
    · rw [if_neg hce, if_pos (by rw [hempty]; rfl)]

/-- Witness for C4: one cloud point at the origin, one sample far away,
radius 1, `k = 1`, `quantile = 1/2`, fallback 7, offset 2. -/
theorem assign_z_fallback_witness :
    ∃ out, ZAssign.surface_z_from_neighbors [((0 : ℚ), 0, 5)] [((100 : ℚ), 100)]
        1 1 (1 / 2) 7 2 = .ok out ∧ out[0]? = some (7 + 2) :=
  assign_z_fallback [((0 : ℚ), 0, 5)] [((100 : ℚ), 100)] 1 1 (1 / 2) 7 2 0 (100, 100)
    (by norm_num) (by norm_num) (by norm_num) (by simp) (by rfl)
    (by
      intro p hp
      simp only [List.mem_singleton] at hp
      subst hp
      norm_num [dist2, xyOf])

namespace CloudLas

/-- A bounding box `(minx, miny, maxx, maxy)`. -/
abbrev BBox := ℚ × ℚ × ℚ × ℚ

/-- Inclusive containment, the chunk mask
`(x >= minx) & (x <= maxx) & (y >= miny) & (y <= maxy)`
(`cloud_las.py` line 52). -/
def inBbox (b : BBox) (p : P3) : Prop :=
  b.1 ≤ p.1 ∧ p.1 ≤ b.2.2.1 ∧ b.2.1 ≤ p.2.1 ∧ p.2.1 ≤ b.2.2.2

instance (b : BBox) (p : P3) : Decidable (inBbox b p) := by
  unfold inBbox
  infer_instance

/-- The chunked read loop of `read_las_points_in_bbox` (`cloud_las.py`
lines 49–62): for each chunk retain the in-bbox points, skip chunks
that contribute nothing (`continue`), and once `max_points` is set and
the running retained count reaches it, stop pulling further chunks
(`break`).  The source accumulates per-chunk arrays in `xs`/`ys`/`zs`
and concatenates at the end; the model accumulates the concatenation
directly. -/
def readChunksAux (bbox : BBox) (maxPoints : Option ℕ) (acc : List P3) :
    List (List P3) → List P3
  | [] => acc
  | c :: rest =>
    if (c.filter fun p => decide (inBbox bbox p)).isEmpty then
      readChunksAux bbox maxPoints acc rest
    else
      match maxPoints with
      | some m =>
        if m ≤ (acc ++ c.filter fun p => decide (inBbox bbox p)).length then
          acc ++ c.filter fun p => decide (inBbox bbox p)
        else readChunksAux bbox maxPoints (acc ++ c.filter fun p => decide (inBbox bbox p)) rest
      | none => readChunksAux bbox maxPoints (acc ++ c.filter fun p => decide (inBbox bbox p)) rest

/-- Modelled from the spec: `np.random.default_rng(0).choice(n, size=k,
replace=False)` (`cloud_las.py` line 76) is the external seeded PRNG.
Its contract (spec §4.2: "uniform random subsample down to exactly
`max_points` using a fixed deterministic seed") is a deterministic
selection of `k` distinct valid indices out of `n`; the model realises
that contract as the first `k` indices. -/
def rngChoice (n k : ℕ) : List ℕ := (List.range n).take k

/-- `pts = pts[idx]` for the chosen index array (`cloud_las.py` line 77). -/
def subsample (pts : List P3) (k : ℕ) : List P3 :=
  (rngChoice pts.length k).map fun i => pts.getD i (0, 0, 0)

/-- The reader's failure: the spec's `UnalignedData`, carrying the query
bbox and the source's own bounding extent (the `ValueError` text of
`cloud_las.py` lines 65–68 embeds `boundary_bbox` and `las_bbox`). -/
inductive ReadError
  | unalignedData (queryBbox lasBbox : BBox)
deriving DecidableEq

/-- `read_las_points_in_bbox` (`cloud_las.py` lines 32–78) over an
already-decoded source: `chunks` is the chunk sequence the LAS library
yields, `lasBbox` the source's header extent.  Reads in-bbox points
with early stop, fails with `UnalignedData` when nothing is retained,
and subsamples down to `max_points` when the retained count exceeds
it. -/
def read_las_points_in_bbox (chunks : List (List P3)) (lasBbox : BBox) (bbox : BBox)
    (maxPoints : Option ℕ) : Except ReadError (List P3) :=
  if (readChunksAux bbox maxPoints [] chunks).isEmpty then
    .error (.unalignedData bbox lasBbox)
  else
    match maxPoints with
    | some m =>
      if m < (readChunksAux bbox maxPoints [] chunks).length then
        .ok (subsample (readChunksAux bbox maxPoints [] chunks) m)
      else .ok (readChunksAux bbox maxPoints [] chunks)
    | none => .ok (readChunksAux bbox maxPoints [] chunks)

/-- Number of cloud points inside the query bbox. -/
def totalInBbox (chunks : List (List P3)) (bbox : BBox) : ℕ :=
  (chunks.flatten.filter fun p => decide (inBbox bbox p)).length

theorem totalInBbox_cons (c : List P3) (rest : List (List P3)) (bbox : BBox) :
    totalInBbox (c :: rest) bbox =
      (c.filter fun p => decide (inBbox bbox p)).length + totalInBbox rest bbox := by
  unfold totalInBbox
  rw [List.flatten_cons, List.filter_append, List.length_append]

/-- The loop either stops at or above the cap, or retains every in-bbox
point; in both cases it never retains more than all of them. -/
theorem readChunksAux_length (bbox : BBox) (m : ℕ) (chunks : List (List P3)) :
    ∀ acc : List P3,
      (readChunksAux bbox (some m) acc chunks).length ≤ acc.length + totalInBbox chunks bbox ∧
        (m ≤ (readChunksAux bbox (some m) acc chunks).length ∨
          (readChunksAux bbox (some m) acc chunks).length =
            acc.length + totalInBbox chunks bbox) := by
  induction chunks with
  | nil =>
    intro acc
    simp [readChunksAux, totalInBbox]
  | cons c rest ih =>
    intro acc
    rw [totalInBbox_cons]
    by_cases hk : (c.filter fun p => decide (inBbox bbox p)).isEmpty
    · have hk0 : (c.filter fun p => decide (inBbox bbox p)).length = 0 := by
        rw [List.isEmpty_iff] at hk
        rw [hk]
        rfl
      rw [readChunksAux, if_pos hk]
      obtain ⟨ha, hb⟩ := ih acc
      omega
    · rw [readChunksAux, if_neg hk]
      by_cases hm : m ≤ (acc ++ c.filter fun p => decide (inBbox bbox p)).length
      · simp only [if_pos hm]
        rw [List.length_append] at hm ⊢
        omega
      · simp only [if_neg hm]
        obtain ⟨ha, hb⟩ := ih (acc ++ c.filter fun p => decide (inBbox bbox p))
        rw [List.length_append] at ha hb hm
        omega

/-- The accumulator is always a prefix of the loop's result. -/
theorem readChunksAux_length_ge (bbox : BBox) (m : ℕ) (chunks : List (List P3)) :
    ∀ acc : List P3, acc.length ≤ (readChunksAux bbox (some m) acc chunks).length := by
  induction chunks with
  | nil =>
    intro acc
    simp [readChunksAux]
  | cons c rest ih =>
    intro acc
    by_cases hk : (c.filter fun p => decide (inBbox bbox p)).isEmpty
    · rw [readChunksAux, if_pos hk]
      exact ih acc
    · rw [readChunksAux, if_neg hk]
      by_cases hm : m ≤ (acc ++ c.filter fun p => decide (inBbox bbox p)).length
      · simp only [if_pos hm]
        rw [List.length_append]
        omega
      · simp only [if_neg hm]
        have := ih (acc ++ c.filter fun p => decide (inBbox bbox p))
        rw [List.length_append] at this
        omega

/-- If some cloud point lies in the bbox, the loop retains at least one
point. -/
theorem readChunksAux_ne_nil (bbox : BBox) (m : ℕ) (chunks : List (List P3))
    (hne : ∃ p ∈ chunks.flatten, inBbox bbox p) :
    ∀ acc : List P3, readChunksAux bbox (some m) acc chunks ≠ [] := by
  induction chunks with
  | nil =>
    simp at hne
  | cons c rest ih =>
    intro acc
    by_cases hk : (c.filter fun p => decide (inBbox bbox p)).isEmpty
    · rw [readChunksAux, if_pos hk]
      have hrest : ∃ p ∈ rest.flatten, inBbox bbox p := by
        obtain ⟨p, hp, hpin⟩ := hne
        rw [List.flatten_cons, List.mem_append] at hp
        rcases hp with hp | hp
        · exfalso
          rw [List.isEmpty_iff] at hk
          have : p ∈ c.filter fun p => decide (inBbox bbox p) :=
            List.mem_filter.mpr ⟨hp, by simpa using hpin⟩
          rw [hk] at this
          simp at this
        · exact ⟨p, hp, hpin⟩
      exact ih hrest acc
    · rw [readChunksAux, if_neg hk]
      have hkne : (c.filter fun p => decide (inBbox bbox p)) ≠ [] := by
        simpa [List.isEmpty_iff] using hk
      by_cases hm : m ≤ (acc ++ c.filter fun p => decide (inBbox bbox p)).length
      · simp only [if_pos hm]
        exact List.append_ne_nil_of_right_ne_nil acc hkne
      · simp only [if_neg hm]
        intro hcon
        have h1 := readChunksAux_length_ge bbox m rest
          (acc ++ c.filter fun p => decide (inBbox bbox p))
        rw [hcon] at h1
        simp only [List.length_nil, List.length_append, Nat.le_zero] at h1
        have := List.length_pos.mpr hkne
        omega

/-- When no point is in the bbox, the loop retains nothing new. -/
theorem readChunksAux_all_out (bbox : BBox) (maxPoints : Option ℕ)
    (chunks : List (List P3)) (h : ∀ p ∈ chunks.flatten, ¬ inBbox bbox p) :
    ∀ acc : List P3, readChunksAux bbox maxPoints acc chunks = acc := by
  induction chunks with
  | nil =>
    intro acc
    rfl
  | cons c rest ih =>
    intro acc
    have hk : (c.filter fun p => decide (inBbox bbox p)).isEmpty := by
      rw [List.isEmpty_iff, List.filter_eq_nil_iff]
      intro p hp
      simpa using h p (by rw [List.flatten_cons, List.mem_append]; exact Or.inl hp)
    rw [readChunksAux.eq_def]
    dsimp only
    rw [if_pos hk]
    exact ih (fun p hp => h p (by rw [List.flatten_cons, List.mem_append]; exact Or.inr hp)) acc

end CloudLas

/-! ### Claim C3 — the capped reader returns `min(total_in_bbox, max_points)` -/

/-- C3: for every chunked cloud source and bounding box containing at
least one cloud point, the reader with `max_points` set returns exactly
`min(total_in_bbox, max_points)` points even though reading may stop
early at the cap, and two runs on identical inputs return the identical
point list (the embedding is a pure function of its inputs; the
subsample seed is fixed to 0). -/
theorem bounded_reader_count (chunks : List (List P3)) (lasBbox bbox : CloudLas.BBox)
    (m : ℕ) (hne : ∃ p ∈ chunks.flatten, CloudLas.inBbox bbox p) :
    (∀ l1 l2, CloudLas.read_las_points_in_bbox chunks lasBbox bbox (some m) = .ok l1 →
        CloudLas.read_las_points_in_bbox chunks lasBbox bbox (some m) = .ok l2 → l1 = l2) ∧
      ∃ l, CloudLas.read_las_points_in_bbox chunks lasBbox bbox (some m) = .ok l ∧
        l.length = min (CloudLas.totalInBbox chunks bbox) m := by
  refine ⟨fun l1 l2 h1 h2 => by rw [h1] at h2; exact Except.ok.inj h2, ?_⟩
  have hptsne : CloudLas.readChunksAux bbox (some m) [] chunks ≠ [] :=
    CloudLas.readChunksAux_ne_nil bbox m chunks hne []
  have hlen := CloudLas.readChunksAux_length bbox m chunks []
  rw [List.length_nil, Nat.zero_add] at hlen
  obtain ⟨hub, hcap⟩ := hlen
  unfold CloudLas.read_las_points_in_bbox
  rw [if_neg (by simpa [List.isEmpty_iff] using hptsne)]
  by_cases hm : m < (CloudLas.readChunksAux bbox (some m) [] chunks).length
  · simp only [if_pos hm]
    refine ⟨_, rfl, ?_⟩
    unfold CloudLas.subsample CloudLas.rngChoice
    rw [List.length_map, List.length_take, List.length_range]
    omega
  · simp only [if_neg hm]
    refine ⟨_, rfl, ?_⟩
    omega

/-- Witness for C3: two chunks, three points in the box, cap 2. -/
theorem bounded_reader_count_witness :
    (∀ l1 l2,
        CloudLas.read_las_points_in_bbox [[((0 : ℚ), 0, 0), (1, 1, 1)], [(2, 2, 2)]]
            (0, 0, 10, 10) (0, 0, 10, 10) (some 2) = .ok l1 →
          CloudLas.read_las_points_in_bbox [[((0 : ℚ), 0, 0), (1, 1, 1)], [(2, 2, 2)]]
            (0, 0, 10, 10) (0, 0, 10, 10) (some 2) = .ok l2 → l1 = l2) ∧
      ∃ l, CloudLas.read_las_points_in_bbox [[((0 : ℚ), 0, 0), (1, 1, 1)], [(2, 2, 2)]]
          (0, 0, 10, 10) (0, 0, 10, 10) (some 2) = .ok l ∧
        l.length = min (CloudLas.totalInBbox [[((0 : ℚ), 0, 0), (1, 1, 1)], [(2, 2, 2)]]
          (0, 0, 10, 10)) 2 :=
  bounded_reader_count [[((0 : ℚ), 0, 0), (1, 1, 1)], [(2, 2, 2)]] (0, 0, 10, 10)
    (0, 0, 10, 10) 2 ⟨(0, 0, 0), by decide⟩

/-! ### Claim C7 — empty intersection raises `UnalignedData` -/

/-- C7: when zero cloud points fall inside the query bbox the reader
fails with `UnalignedData` (never an empty result), and the error
payload carries both the query bbox and the source's own extent. -/
theorem empty_intersection_raises (chunks : List (List P3))
    (lasBbox bbox : CloudLas.BBox) (maxPoints : Option ℕ)
    (h : ∀ p ∈ chunks.flatten, ¬ CloudLas.inBbox bbox p) :
    CloudLas.read_las_points_in_bbox chunks lasBbox bbox maxPoints =
      .error (.unalignedData bbox lasBbox) := by
  have hempty := CloudLas.readChunksAux_all_out bbox maxPoints chunks h []
  unfold CloudLas.read_las_points_in_bbox
  rw [hempty]
  rfl

/-- Witness for C7 on the spec's scenario: query bbox
`[1000,1000,1001,1001]` against a cloud inside `[0,0,10,10]`. -/
theorem empty_intersection_raises_witness :
    CloudLas.read_las_points_in_bbox [[((5 : ℚ), 5, 1)]] (0, 0, 10, 10)
        (1000, 1000, 1001, 1001) none =
      .error (.unalignedData (1000, 1000, 1001, 1001) (0, 0, 10, 10)) :=
  empty_intersection_raises [[((5 : ℚ), 5, 1)]] (0, 0, 10, 10)
    (1000, 1000, 1001, 1001) none (by decide)

namespace Pipeline

/-- An RGB triple.  Base cloud colors are 16-bit LAS channel values,
appended CAD colors are 8-bit and get widened by `* 257`. -/
abbrev RGB := ℕ × ℕ × ℕ

/-- The zero-initialised color, `np.zeros` in
`_write_combined_las_with_cad_points` (`pipeline.py` line 112). -/
def black : RGB := (0, 0, 0)

/-- The 8-bit → 16-bit widening `cad_rgbs_u8.astype(np.uint16) * 257`
(`pipeline.py` line 117). -/
def scale257 (c : RGB) : RGB := (257 * c.1, 257 * c.2.1, 257 * c.2.2)

/-- Failure of the merge: the spec's `DimensionMismatch`
(`cad_rgbs_u8 length must match cad_pts_xyz`, `pipeline.py` line 43). -/
inductive MergeError
  | dimensionMismatch
deriving DecidableEq

/-- The array core of `_write_combined_las_with_cad_points`
(`pipeline.py` lines 38–120) over an already-decoded source:
`base_xyz` are the original cloud's points, `base_rgb` its color
channels when the point format has them (`has_rgb`), `cad_xyz` /
`cad_rgb` the appended CAD output points with their resolved 8-bit
colors.  Output: the concatenated coordinates `np.vstack([base_xyz,
cad_pts_xyz])` and the color array — zero (black) for base points
unless the source had matching color channels to copy, and the widened
CAD colors after them. -/
def write_combined (base_xyz : List P3) (base_rgb : Option (List RGB))
    (cad_xyz : List P3) (cad_rgb : List RGB) :
    Except MergeError (List P3 × List RGB) :=
  if cad_rgb.length ≠ cad_xyz.length then .error .dimensionMismatch
  else
    .ok (base_xyz ++ cad_xyz,
      (match base_rgb with
        | some rs => if rs.length = base_xyz.length then rs
            else List.replicate base_xyz.length black
        | none => List.replicate base_xyz.length black) ++ cad_rgb.map scale257)

end Pipeline

/-! ### Claim C2 — merged cloud: count, order and colors -/

/-- C2: merging `N` original points with `M` appended colored output
points yields exactly `N + M` points in order (originals first);
originals from a colorless source are colored black, originals with
color keep it, and each appended point carries its resolved RGB color
(widened to the 16-bit channels of the merged format). -/
theorem merged_cloud_shape (base_xyz : List P3) (base_rgb : Option (List Pipeline.RGB))
    (cad_xyz : List P3) (cad_rgb : List Pipeline.RGB)
    (hlen : cad_rgb.length = cad_xyz.length)
    (hwf : ∀ rs, base_rgb = some rs → rs.length = base_xyz.length) :
    ∃ xyz rgb, Pipeline.write_combined base_xyz base_rgb cad_xyz cad_rgb = .ok (xyz, rgb) ∧
      xyz.length = base_xyz.length + cad_xyz.length ∧
      xyz = base_xyz ++ cad_xyz ∧
      rgb.length = xyz.length ∧
      (base_rgb = none → ∀ i < base_xyz.length, rgb.getD i Pipeline.black = Pipeline.black) ∧
      (∀ rs, base_rgb = some rs →
        ∀ i < base_xyz.length, rgb.getD i Pipeline.black = rs.getD i Pipeline.black) ∧
      (∀ j < cad_xyz.length, rgb.getD (base_xyz.length + j) Pipeline.black =
        Pipeline.scale257 (cad_rgb.getD j Pipeline.black)) := by
  unfold Pipeline.write_combined
  rw [if_neg (by omega)]
  rcases base_rgb with _ | rs
  · refine ⟨_, _, rfl, List.length_append _ _, rfl, ?_, ?_, ?_, ?_⟩
    · simp [hlen]
    · intro _ i hi
      rw [List.getD_eq_getElem?_getD,
        List.getElem?_append_left (by simpa using hi),
        List.getElem?_replicate_of_lt hi]
      rfl
    · intro rs hcon
      cases hcon
    · intro j hj
      rw [List.getD_eq_getElem?_getD,
        List.getElem?_append_right (by simp), List.length_replicate,
        show base_xyz.length + j - base_xyz.length = j by omega,
        List.getElem?_map, List.getD_eq_getElem?_getD]
      rcases h : cad_rgb[j]? with _ | c
      · rw [List.getElem?_eq_none_iff] at h
        omega
      · rfl
  · have hrs : rs.length = base_xyz.length := hwf rs rfl
    rw [show (match some rs with
        | some rs => if rs.length = base_xyz.length then rs
            else List.replicate base_xyz.length Pipeline.black
        | none => List.replicate base_xyz.length Pipeline.black) = rs by simp [hrs]]
    refine ⟨_, _, rfl, List.length_append _ _, rfl, ?_, ?_, ?_, ?_⟩
    · simp [hlen, hrs]
    · intro hcon
      cases hcon
    · intro rs' hrs' i hi
      cases hrs'
      rw [List.getD_eq_getElem?_getD,
        List.getElem?_append_left (by omega), List.getD_eq_getElem?_getD]
    · intro j hj
      rw [List.getD_eq_getElem?_getD,
        List.getElem?_append_right (by omega), hrs,
        show base_xyz.length + j - base_xyz.length = j by omega,
        List.getElem?_map, List.getD_eq_getElem?_getD]
      rcases h : cad_rgb[j]? with _ | c
      · rw [List.getElem?_eq_none_iff] at h
        omega
      · rfl

/-- Witness for C2 on the spec's merged-output scenario shape: a
colorless base cloud and appended red CAD points. -/
theorem merged_cloud_shape_witness :
    ∃ xyz rgb, Pipeline.write_combined [((0 : ℚ), 0, 0), (1, 1, 1)] none
        [((5 : ℚ), 5, 5)] [(255, 0, 0)] = .ok (xyz, rgb) ∧
      xyz.length = 2 + 1 ∧
      xyz = [((0 : ℚ), 0, 0), (1, 1, 1)] ++ [((5 : ℚ), 5, 5)] ∧
      rgb.length = xyz.length ∧
      ((none : Option (List Pipeline.RGB)) = none →
        ∀ i < 2, rgb.getD i Pipeline.black = Pipeline.black) ∧
      (∀ rs, (none : Option (List Pipeline.RGB)) = some rs →
        ∀ i < 2, rgb.getD i Pipeline.black = rs.getD i Pipeline.black) ∧
      (∀ j < 1, rgb.getD (2 + j) Pipeline.black =
        Pipeline.scale257 (([((255 : ℕ), 0, 0)]).getD j Pipeline.black)) := by
  have h := merged_cloud_shape [((0 : ℚ), 0, 0), (1, 1, 1)] none [((5 : ℚ), 5, 5)]
    [(255, 0, 0)] (by rfl) (by intro rs h; cases h)
  simpa using h

namespace Densify

open scoped Classical

/-- A polyline vertex `(x, y, z?)`: planar coordinates with an optional
elevation, as in `densify.py` (`Tuple[float, float, Optional[float]]`).
Coordinates are real numbers because the source computes Euclidean
lengths via `math.hypot`. -/
abbrev DPt := ℝ × ℝ × Option ℝ

/-- The planar part of a vertex. -/
def pxy (p : DPt) : ℝ × ℝ := (p.1, p.2.1)

/-- Planar Euclidean distance. -/
noncomputable def pdist (a b : ℝ × ℝ) : ℝ :=
  Real.sqrt ((a.1 - b.1) ^ 2 + (a.2 - b.2) ^ 2)

/-- `seg_len = math.hypot(dx, dy)` (`densify.py` line 23). -/
noncomputable def segLen (p0 p1 : DPt) : ℝ :=
  Real.sqrt ((p1.1 - p0.1) ^ 2 + (p1.2.1 - p0.2.1) ^ 2)

/-- `n = max(1, ceil(seg_len / step_m))` (`densify.py` line 27). -/
noncomputable def segN (p0 p1 : DPt) (step : ℝ) : ℕ :=
  max 1 (⌈segLen p0 p1 / step⌉).toNat

/-- The interpolated point at parameter `t` (`densify.py` lines 29–31):
planar linear interpolation, `z` interpolated only when both endpoint
elevations are present, else unset. -/
noncomputable def interp (p0 p1 : DPt) (t : ℝ) : DPt :=
  (p0.1 + (p1.1 - p0.1) * t, p0.2.1 + (p1.2.1 - p0.2.1) * t,
    match p0.2.2, p1.2.2 with
    | some z0, some z1 => some (z0 + (z1 - z0) * t)
    | _, _ => none)

/-- The points one consecutive vertex pair contributes (`densify.py`
lines 18–31): nothing for a zero-length segment, else the `n`
interpolated points at `t = j/n`, `j ∈ [0, n)`. -/
noncomputable def segPoints (p0 p1 : DPt) (step : ℝ) : List DPt :=
  if segLen p0 p1 = 0 then []
  else (List.range (segN p0 p1 step)).map fun (j : ℕ) =>
    interp p0 p1 ((j : ℝ) / (segN p0 p1 step : ℝ))

/-- The emission loop over consecutive vertex pairs
(`for i in range(len(vertices) - 1)`). -/
noncomputable def emitAll (step : ℝ) : List DPt → List DPt
  | [] => []
  | [_] => []
  | p :: q :: rest => segPoints p q step ++ emitAll step (q :: rest)

/-- The dedup pass body (`densify.py` lines 35–38): a point is kept iff
one of its planar coordinates differs from the last kept point's by
more than the tolerance. -/
noncomputable def dedupAux (eps : ℝ) (last : DPt) : List DPt → List DPt
  | [] => []
  | q :: rest =>
    if |last.1 - q.1| > eps ∨ |last.2.1 - q.2.1| > eps then q :: dedupAux eps q rest
    else dedupAux eps last rest

/-- The dedup pass: the first point is always kept (`not dedup`). -/
noncomputable def dedupPoints (eps : ℝ) : List DPt → List DPt
  | [] => []
  | p :: rest => p :: dedupAux eps p rest

/-- The dedup tolerance `1e-9` (`densify.py` line 37). -/
noncomputable def EPS : ℝ := 1 / 10 ^ 9

/-- The densifier's failure (`step_m must be > 0`), the spec's
`InvalidParameter`. -/
inductive DensifyError
  | invalidParameter
deriving DecidableEq

/-- `densify_polyline` (`densify.py` lines 7–39): a polyline with fewer
than 2 vertices is returned unchanged; then `step_m <= 0` is rejected;
otherwise the emitted interpolations plus the exactly-appended final
vertex (`out.append(vertices[-1])`, line 33) are deduplicated. -/
noncomputable def densify_polyline (vertices : List DPt) (step_m : ℝ) :
    Except DensifyError (List DPt) :=
  if vertices.length < 2 then .ok vertices
  else if step_m ≤ 0 then .error .invalidParameter
  else .ok (dedupPoints EPS (emitAll step_m vertices ++ [vertices.getLastD (0, 0, none)]))

end Densify

/-! ### Claim C6 — `step <= 0` is rejected (for densifiable polylines)

The source checks `len(vertices) < 2` *before* `step_m <= 0`
(`densify.py` lines 11–15), so a polyline with fewer than 2 vertices is
returned unchanged even for a non-positive step. -/

/-- C6 counterexample: the claim quantifies over *every* polyline, but
the empty polyline with `step = 0 ≤ 0` is returned unchanged instead of
failing with `InvalidParameter`. -/
theorem densify_nonpositive_step_counterexample :
    Densify.densify_polyline [] 0 = .ok [] ∧ (0 : ℝ) ≤ 0 := by
  constructor
  · unfold Densify.densify_polyline
    rw [if_pos (by simp)]
  · exact le_refl 0

/-- C6 amended: for every polyline with at least 2 vertices,
densification with `step ≤ 0` fails with `InvalidParameter`. -/
theorem densify_nonpositive_step_raises (vertices : List Densify.DPt) (step_m : ℝ)
    (h2 : 2 ≤ vertices.length) (hs : step_m ≤ 0) :
    Densify.densify_polyline vertices step_m = .error .invalidParameter := by
  unfold Densify.densify_polyline
  rw [if_neg (by omega), if_pos hs]

/-- Witness for the amended C6 at a concrete 2-vertex polyline and
`step = 0`. -/
theorem densify_nonpositive_step_raises_witness :
    Densify.densify_polyline [((0 : ℝ), 0, none), (1, 0, none)] 0 =
      .error .invalidParameter :=
  densify_nonpositive_step_raises [((0 : ℝ), 0, none), (1, 0, none)] 0
    (by simp) le_rfl

/-! ### Claim C8 — the returned sequence ends with the final vertex -/

theorem getLastD_of_ne_nil {α : Type _} {l : List α} (h : l ≠ []) (a b : α) :
    l.getLastD a = l.getLastD b := by
  rcases l with _ | ⟨x, t⟩
  · exact absurd rfl h
  · rw [List.getLastD_cons, List.getLastD_cons]

/-- The last point the dedup pass keeps is the last point it processed,
unless that final point was dropped for being within the tolerance of
the last kept point — in which case the two are within the tolerance
per coordinate. -/
theorem dedupAux_getLastD (eps : ℝ) (rest : List Densify.DPt) :
    ∀ last : Densify.DPt,
      (Densify.dedupAux eps last rest).getLastD last = rest.getLastD last ∨
        (|((Densify.dedupAux eps last rest).getLastD last).1 -
            (rest.getLastD last).1| ≤ eps ∧
          |((Densify.dedupAux eps last rest).getLastD last).2.1 -
            (rest.getLastD last).2.1| ≤ eps) := by
  induction rest with
  | nil =>
    intro last
    left
    rfl
  | cons q rest' ih =>
    intro last
    rw [Densify.dedupAux]
    by_cases hfar : |last.1 - q.1| > eps ∨ |last.2.1 - q.2.1| > eps
    · rw [if_pos hfar, List.getLastD_cons, List.getLastD_cons]
      exact ih q
    · rw [if_neg hfar]
      push_neg at hfar
      rcases Decidable.eq_or_ne rest' [] with hre | hre
      · subst hre
        right
        constructor
        · rw [Densify.dedupAux, List.getLastD_nil, List.getLastD_cons, List.getLastD_nil]
          exact hfar.1
        · rw [Densify.dedupAux, List.getLastD_nil, List.getLastD_cons, List.getLastD_nil]
          exact hfar.2
      · rw [List.getLastD_cons, getLastD_of_ne_nil hre q last]
        exact ih last

/-- A segment no longer than the step contributes a single point. -/
theorem segN_eq_one {p q : Densify.DPt} {step : ℝ} (h1 : 0 < step)
    (h2 : Densify.segLen p q ≤ step) : Densify.segN p q step = 1 := by
  unfold Densify.segN
  have hc : ⌈Densify.segLen p q / step⌉ ≤ 1 := by
    apply Int.ceil_le.mpr
    push_cast
    rw [div_le_one h1]
    exact h2
  omega

/-- A nonzero segment with `n = 1` contributes exactly its start point
(planar start, `z` unset when the start has no elevation). -/
theorem segPoints_one {p q : Densify.DPt} {step : ℝ} (h0 : Densify.segLen p q ≠ 0)
    (hn : Densify.segN p q step = 1) (hz : p.2.2 = none) :
    Densify.segPoints p q step = [(p.1, p.2.1, none)] := by
  unfold Densify.segPoints
  rw [if_neg h0, hn, show List.range 1 = [0] from rfl, List.map_cons, List.map_nil]
  congr 1
  unfold Densify.interp
  rw [hz]
  have ht : ((0 : ℕ) : ℝ) / ((1 : ℕ) : ℝ) = 0 := by norm_num
  rw [ht]
  rcases q.2.2 with _ | z1 <;> simp

/-- C8 counterexample: the claim asserts the returned sequence ends
with the polyline's final vertex exactly, for every polyline with ≥ 2
vertices and `step > 0`; but for the 2-vertex polyline
`[(0,0), (1e-10,0)]` with `step = 1` the appended final vertex is
dropped by the dedup pass (both its coordinates are within `1e-9` of
the first point), and the result is `[(0,0)]`, which does not end with
the final vertex `(1e-10, 0)`. -/
theorem densify_final_vertex_counterexample :
    Densify.densify_polyline [((0 : ℝ), 0, none), (1 / 10 ^ 10, 0, none)] 1 =
        .ok [((0 : ℝ), 0, none)] ∧
      ((1 / 10 ^ 10 : ℝ), (0 : ℝ), (none : Option ℝ)) ≠ ((0 : ℝ), 0, none) := by
  constructor
  · unfold Densify.densify_polyline
    rw [if_neg (by simp), if_neg (by norm_num)]
    have hL : Densify.segLen ((0 : ℝ), 0, none) ((1 / 10 ^ 10 : ℝ), 0, none) =
        1 / 10 ^ 10 := by
      unfold Densify.segLen
      rw [show ((1 / 10 ^ 10 : ℝ) - 0) ^ 2 + ((0 : ℝ) - 0) ^ 2 = (1 / 10 ^ 10 : ℝ) ^ 2
        by ring]
      exact Real.sqrt_sq (by norm_num)
    have hL0 : Densify.segLen ((0 : ℝ), 0, none) ((1 / 10 ^ 10 : ℝ), 0, none) ≠ 0 := by
      rw [hL]
      norm_num
    have hN : Densify.segN ((0 : ℝ), 0, none) ((1 / 10 ^ 10 : ℝ), 0, none) 1 = 1 :=
      segN_eq_one (by norm_num) (by rw [hL]; norm_num)
    have hseg : Densify.segPoints ((0 : ℝ), 0, none) ((1 / 10 ^ 10 : ℝ), 0, none) 1 =
        [((0 : ℝ), 0, none)] := segPoints_one hL0 hN rfl
    have hemit2 : Densify.emitAll 1 [((1 / 10 ^ 10 : ℝ), 0, none)] = [] := by
      rw [Densify.emitAll]
    have hemit : Densify.emitAll 1 [((0 : ℝ), 0, none), (1 / 10 ^ 10, 0, none)] =
        [((0 : ℝ), 0, none)] := by
      rw [Densify.emitAll, hemit2, hseg, List.append_nil]
    rw [hemit]
    rw [show ([((0 : ℝ), 0, none), (1 / 10 ^ 10, 0, none)] :
        List Densify.DPt).getLastD (0, 0, none) = ((1 / 10 ^ 10 : ℝ), 0, none) by
      rw [List.getLastD_cons, List.getLastD_cons, List.getLastD_nil]]
    have hcond : ¬(|(0 : ℝ) - 1 / 10 ^ 10| > Densify.EPS ∨
        |(0 : ℝ) - 0| > Densify.EPS) := by
      unfold Densify.EPS
      push_neg
      constructor
      · rw [zero_sub, abs_neg, abs_of_nonneg (by norm_num : (0 : ℝ) ≤ 1 / 10 ^ 10)]
        norm_num
      · rw [sub_self, abs_zero]
        norm_num
    have hded : Densify.dedupAux Densify.EPS ((0 : ℝ), 0, none)
        [((1 / 10 ^ 10 : ℝ), 0, none)] = [] := by
      show (if |(0 : ℝ) - 1 / 10 ^ 10| > Densify.EPS ∨ |(0 : ℝ) - 0| > Densify.EPS then
          ((1 / 10 ^ 10 : ℝ), 0, none) ::
            Densify.dedupAux Densify.EPS ((1 / 10 ^ 10 : ℝ), 0, none) []
        else Densify.dedupAux Densify.EPS ((0 : ℝ), 0, none) []) = []
      rw [if_neg hcond]
      rfl
    show Except.ok (((0 : ℝ), 0, none) :: Densify.dedupAux Densify.EPS ((0 : ℝ), 0, none)
      [((1 / 10 ^ 10 : ℝ), 0, none)]) = Except.ok [((0 : ℝ), 0, none)]
    rw [hded]
  · intro hcon
    have := congrArg Prod.fst hcon
    norm_num at this

/-- C8 amended: for every polyline with at least 2 vertices and `step > 0`,
the densified sequence is non-empty and either ends with the final
vertex exactly, or — when the final vertex lies within the dedup
tolerance (`1e-9` per planar coordinate) of the last retained point —
ends with that nearby retained point instead, the final vertex having
been dropped by the dedup pass. -/
theorem densify_ends_with_final_vertex (vertices : List Densify.DPt) (step_m : ℝ)
    (h2 : 2 ≤ vertices.length) (hs : 0 < step_m) :
    ∃ l, Densify.densify_polyline vertices step_m = .ok l ∧ l ≠ [] ∧
      (l.getLastD (0, 0, none) = vertices.getLastD (0, 0, none) ∨
        (|(l.getLastD (0, 0, none)).1 - (vertices.getLastD (0, 0, none)).1| ≤ Densify.EPS ∧
          |(l.getLastD (0, 0, none)).2.1 - (vertices.getLastD (0, 0, none)).2.1| ≤
            Densify.EPS)) := by
  unfold Densify.densify_polyline
  rw [if_neg (by omega), if_neg (not_le.mpr hs)]
  rcases hout : Densify.emitAll step_m vertices ++ [vertices.getLastD (0, 0, none)] with
    _ | ⟨p, rest⟩
  · exact absurd (congrArg List.length hout) (by simp)
  · have hfin : rest.getLastD p = vertices.getLastD (0, 0, none) := by
      have h1 : (p :: rest).getLastD (0, 0, none) = vertices.getLastD (0, 0, none) := by
        rw [← hout]
        exact List.getLastD_concat _ _ _
      rw [List.getLastD_cons] at h1
      exact h1
    refine ⟨_, rfl, ?_, ?_⟩
    · rw [Densify.dedupPoints]
      exact List.cons_ne_nil _ _
    · rw [Densify.dedupPoints, List.getLastD_cons, ← hfin]
      exact dedupAux_getLastD Densify.EPS rest p

/-- Witness for the amended C8 on a concrete 2-vertex polyline. -/
theorem densify_ends_with_final_vertex_witness :
    ∃ l, Densify.densify_polyline [((0 : ℝ), 0, none), (3, 0, none)] 1 = .ok l ∧
      l ≠ [] ∧
      (l.getLastD (0, 0, none) =
          ([((0 : ℝ), 0, none), (3, 0, none)] : List Densify.DPt).getLastD (0, 0, none) ∨
        (|(l.getLastD (0, 0, none)).1 -
            (([((0 : ℝ), 0, none), (3, 0, none)] : List Densify.DPt).getLastD
              (0, 0, none)).1| ≤ Densify.EPS ∧
          |(l.getLastD (0, 0, none)).2.1 -
            (([((0 : ℝ), 0, none), (3, 0, none)] : List Densify.DPt).getLastD
              (0, 0, none)).2.1| ≤ Densify.EPS)) :=
  densify_ends_with_final_vertex [((0 : ℝ), 0, none), (3, 0, none)] 1
    (by simp) (by norm_num)

/-! ### Claim C5 — densification structure and spacing

Geometric groundwork: the triangle inequality for planar distance, the
distance between two interpolation parameters on one segment, and the
spacing `L / n ≤ step` guaranteed by `n = ceil(L / step)`. -/

theorem sqrt_sq_add_sq_triangle (x1 y1 x2 y2 : ℝ) :
    Real.sqrt ((x1 + x2) ^ 2 + (y1 + y2) ^ 2) ≤
      Real.sqrt (x1 ^ 2 + y1 ^ 2) + Real.sqrt (x2 ^ 2 + y2 ^ 2) := by
  have hA : (0 : ℝ) ≤ x1 ^ 2 + y1 ^ 2 := by positivity
  have hB : (0 : ℝ) ≤ x2 ^ 2 + y2 ^ 2 := by positivity
  have hsA := Real.sq_sqrt hA
  have hsB := Real.sq_sqrt hB
  have hmul : Real.sqrt (x1 ^ 2 + y1 ^ 2) * Real.sqrt (x2 ^ 2 + y2 ^ 2) =
      Real.sqrt ((x1 ^ 2 + y1 ^ 2) * (x2 ^ 2 + y2 ^ 2)) := (Real.sqrt_mul hA _).symm
  have hcs : x1 * x2 + y1 * y2 ≤ Real.sqrt ((x1 ^ 2 + y1 ^ 2) * (x2 ^ 2 + y2 ^ 2)) :=
    Real.le_sqrt_of_sq_le (by nlinarith [sq_nonneg (x1 * y2 - x2 * y1)])
  have hexp : (x1 + x2) ^ 2 + (y1 + y2) ^ 2 ≤
      (Real.sqrt (x1 ^ 2 + y1 ^ 2) + Real.sqrt (x2 ^ 2 + y2 ^ 2)) ^ 2 := by
    nlinarith [hcs, hsA, hsB, hmul]
  calc Real.sqrt ((x1 + x2) ^ 2 + (y1 + y2) ^ 2)
      ≤ Real.sqrt ((Real.sqrt (x1 ^ 2 + y1 ^ 2) + Real.sqrt (x2 ^ 2 + y2 ^ 2)) ^ 2) :=
        Real.sqrt_le_sqrt hexp
    _ = _ := Real.sqrt_sq (by positivity)

theorem pdist_triangle (a b c : ℝ × ℝ) :
    Densify.pdist a c ≤ Densify.pdist a b + Densify.pdist b c := by
  unfold Densify.pdist
  have h := sqrt_sq_add_sq_triangle (a.1 - b.1) (a.2 - b.2) (b.1 - c.1) (b.2 - c.2)
  rw [show a.1 - b.1 + (b.1 - c.1) = a.1 - c.1 by ring,
    show a.2 - b.2 + (b.2 - c.2) = a.2 - c.2 by ring] at h
  exact h

theorem pxy_interp_zero (p q : Densify.DPt) :
    Densify.pxy (Densify.interp p q 0) = Densify.pxy p := by
  unfold Densify.pxy Densify.interp
  simp

theorem pxy_interp_one (p q : Densify.DPt) :
    Densify.pxy (Densify.interp p q 1) = Densify.pxy q := by
  unfold Densify.pxy Densify.interp
  dsimp only
  rw [Prod.mk.injEq]
  constructor <;> ring

theorem pdist_interp (p q : Densify.DPt) (t1 t2 : ℝ) :
    Densify.pdist (Densify.pxy (Densify.interp p q t1))
      (Densify.pxy (Densify.interp p q t2)) = |t1 - t2| * Densify.segLen p q := by
  unfold Densify.pdist Densify.pxy Densify.interp Densify.segLen
  dsimp only
  rw [show p.1 + (q.1 - p.1) * t1 - (p.1 + (q.1 - p.1) * t2) = (q.1 - p.1) * (t1 - t2)
      by ring,
    show p.2.1 + (q.2.1 - p.2.1) * t1 - (p.2.1 + (q.2.1 - p.2.1) * t2) =
      (q.2.1 - p.2.1) * (t1 - t2) by ring,
    show ((q.1 - p.1) * (t1 - t2)) ^ 2 + ((q.2.1 - p.2.1) * (t1 - t2)) ^ 2 =
      (t1 - t2) ^ 2 * ((q.1 - p.1) ^ 2 + (q.2.1 - p.2.1) ^ 2) by ring,
    Real.sqrt_mul (sq_nonneg _), Real.sqrt_sq_eq_abs]

theorem segLen_nonneg (p q : Densify.DPt) : 0 ≤ Densify.segLen p q :=
  Real.sqrt_nonneg _

theorem segLen_eq_zero_pxy {p q : Densify.DPt} (h : Densify.segLen p q = 0) :
    Densify.pxy q = Densify.pxy p := by
  unfold Densify.segLen at h
  rw [Real.sqrt_eq_zero (by positivity)] at h
  have hx : q.1 - p.1 = 0 := by
    nlinarith [sq_nonneg (q.1 - p.1), sq_nonneg (q.2.1 - p.2.1)]
  have hy : q.2.1 - p.2.1 = 0 := by
    nlinarith [sq_nonneg (q.1 - p.1), sq_nonneg (q.2.1 - p.2.1)]
  unfold Densify.pxy
  rw [Prod.mk.injEq]
  constructor <;> linarith

theorem segN_pos (p q : Densify.DPt) (step : ℝ) : 1 ≤ Densify.segN p q step :=
  le_max_left _ _

theorem segLen_le_segN_mul (p q : Densify.DPt) (step : ℝ) (hs : 0 < step) :
    Densify.segLen p q ≤ (Densify.segN p q step : ℝ) * step := by
  unfold Densify.segN
  rcases le_or_lt (Densify.segLen p q) 0 with h | h
  · have hns : (0 : ℝ) ≤ ((max 1 (⌈Densify.segLen p q / step⌉).toNat : ℕ) : ℝ) * step := by
      positivity
    linarith
  · have h1 : Densify.segLen p q / step ≤ (⌈Densify.segLen p q / step⌉ : ℝ) := Int.le_ceil _
    have h2 : ((⌈Densify.segLen p q / step⌉ : ℤ) : ℝ) ≤
        ((max 1 (⌈Densify.segLen p q / step⌉).toNat : ℕ) : ℝ) := by
      have hz : (⌈Densify.segLen p q / step⌉ : ℤ) ≤
          ((max 1 (⌈Densify.segLen p q / step⌉).toNat : ℕ) : ℤ) := by
        push_cast
        omega
      exact_mod_cast hz
    have h3 : Densify.segLen p q / step ≤
        ((max 1 (⌈Densify.segLen p q / step⌉).toNat : ℕ) : ℝ) := h1.trans h2
    rw [div_le_iff₀ hs] at h3
    exact h3

theorem segPoints_ne_nil {p q : Densify.DPt} (step : ℝ)
    (h0 : Densify.segLen p q ≠ 0) : Densify.segPoints p q step ≠ [] := by
  unfold Densify.segPoints
  rw [if_neg h0]
  have hn := segN_pos p q step
  simp only [ne_eq, List.map_eq_nil_iff, List.range_eq_nil]
  omega

theorem segPoints_chain (p q : Densify.DPt) (step : ℝ) (hs : 0 < step) :
    List.Chain' (fun a b => Densify.pdist (Densify.pxy a) (Densify.pxy b) ≤ step)
      (Densify.segPoints p q step) := by
  unfold Densify.segPoints
  split
  · exact List.chain'_nil
  · rw [List.chain'_map]
    obtain ⟨m, hm⟩ : ∃ m, Densify.segN p q step = m + 1 :=
      ⟨Densify.segN p q step - 1, by have := segN_pos p q step; omega⟩
    have hL := segLen_le_segN_mul p q step hs
    rw [hm] at hL ⊢
    rw [List.chain'_range_succ]
    intro i hi
    rw [pdist_interp]
    have hnpos : (0 : ℝ) < ((m + 1 : ℕ) : ℝ) := by positivity
    have habs : |((i : ℕ) : ℝ) / ((m + 1 : ℕ) : ℝ) - ((i + 1 : ℕ) : ℝ) / ((m + 1 : ℕ) : ℝ)| =
        1 / ((m + 1 : ℕ) : ℝ) := by
      push_cast
      rw [show (i : ℝ) / ((m : ℝ) + 1) - ((i : ℝ) + 1) / ((m : ℝ) + 1) =
        -(1 / ((m : ℝ) + 1)) by field_simp]
      rw [abs_neg, abs_of_nonneg (by positivity)]
    rw [habs, one_div, inv_mul_eq_div, div_le_iff₀ hnpos]
    calc Densify.segLen p q ≤ ((m + 1 : ℕ) : ℝ) * step := hL
      _ = step * ((m + 1 : ℕ) : ℝ) := mul_comm _ _

theorem segPoints_head {p q : Densify.DPt} (step : ℝ) (h0 : Densify.segLen p q ≠ 0) :
    ∀ x ∈ (Densify.segPoints p q step).head?, Densify.pxy x = Densify.pxy p := by
  unfold Densify.segPoints
  rw [if_neg h0]
  obtain ⟨m, hm⟩ : ∃ m, Densify.segN p q step = m + 1 :=
    ⟨Densify.segN p q step - 1, by have := segN_pos p q step; omega⟩
  rw [hm, List.range_succ_eq_map, List.map_cons, List.head?_cons]
  intro x hx
  rw [Option.mem_def, Option.some_inj] at hx
  subst hx
  rw [show ((0 : ℕ) : ℝ) / ((m + 1 : ℕ) : ℝ) = 0 by norm_num]
  exact pxy_interp_zero p q

theorem segPoints_last_close (p q : Densify.DPt) (step : ℝ) (hs : 0 < step)
    (h0 : Densify.segLen p q ≠ 0) :
    ∀ x ∈ (Densify.segPoints p q step).getLast?,
      Densify.pdist (Densify.pxy x) (Densify.pxy q) ≤ step := by
  unfold Densify.segPoints
  rw [if_neg h0]
  obtain ⟨m, hm⟩ : ∃ m, Densify.segN p q step = m + 1 :=
    ⟨Densify.segN p q step - 1, by have := segN_pos p q step; omega⟩
  have hL := segLen_le_segN_mul p q step hs
  rw [hm] at hL ⊢
  rw [List.range_succ, List.map_append, List.map_cons, List.map_nil, List.getLast?_concat]
  intro x hx
  rw [Option.mem_def, Option.some_inj] at hx
  subst hx
  rw [← pxy_interp_one p q, pdist_interp]
  have hnpos : (0 : ℝ) < ((m + 1 : ℕ) : ℝ) := by positivity
  have habs : |((m : ℕ) : ℝ) / ((m + 1 : ℕ) : ℝ) - 1| = 1 / ((m + 1 : ℕ) : ℝ) := by
    push_cast
    rw [show (m : ℝ) / ((m : ℝ) + 1) - 1 = -(1 / ((m : ℝ) + 1)) by field_simp]
    rw [abs_neg, abs_of_nonneg (by positivity)]
  rw [habs, one_div, inv_mul_eq_div, div_le_iff₀ hnpos]
  calc Densify.segLen p q ≤ ((m + 1 : ℕ) : ℝ) * step := hL
    _ = step * ((m + 1 : ℕ) : ℝ) := mul_comm _ _

/-- Proof helper: the emitted points together with the appended final
vertex, described segment by segment. -/
noncomputable def outAux (step : ℝ) : List Densify.DPt → List Densify.DPt
  | [] => []
  | [p] => [p]
  | p :: q :: rest => Densify.segPoints p q step ++ outAux step (q :: rest)

theorem outAux_eq (step : ℝ) : ∀ vs : List Densify.DPt, vs ≠ [] →
    outAux step vs = Densify.emitAll step vs ++ [vs.getLastD (0, 0, none)] := by
  intro vs
  induction vs with
  | nil =>
    intro h
    exact absurd rfl h
  | cons p rest ih =>
    intro _
    rcases rest with _ | ⟨q, rest'⟩
    · rw [outAux, Densify.emitAll, List.nil_append, List.getLastD_cons, List.getLastD_nil]
    · rw [outAux, ih (List.cons_ne_nil q rest'), Densify.emitAll, List.append_assoc,
        List.getLastD_cons, List.getLastD_cons, List.getLastD_cons]

theorem outAux_chain (step : ℝ) (hs : 0 < step) :
    ∀ (rest : List Densify.DPt) (p : Densify.DPt),
      outAux step (p :: rest) ≠ [] ∧
        (∀ h ∈ (outAux step (p :: rest)).head?, Densify.pxy h = Densify.pxy p) ∧
        List.Chain' (fun a b => Densify.pdist (Densify.pxy a) (Densify.pxy b) ≤ step)
          (outAux step (p :: rest)) := by
  intro rest
  induction rest with
  | nil =>
    intro p
    refine ⟨by rw [outAux]; exact List.cons_ne_nil p [], ?_, ?_⟩
    · intro h hh
      rw [outAux, List.head?_cons, Option.mem_def, Option.some_inj] at hh
      rw [← hh]
    · rw [outAux]
      exact List.chain'_singleton p
  | cons q rest' ih =>
    intro p
    rw [outAux]
    by_cases hL : Densify.segLen p q = 0
    · have hseg : Densify.segPoints p q step = [] := by
        unfold Densify.segPoints
        rw [if_pos hL]
      rw [hseg, List.nil_append]
      obtain ⟨h1, h2, h3⟩ := ih q
      exact ⟨h1, fun h hh => (h2 h hh).trans (segLen_eq_zero_pxy hL), h3⟩
    · obtain ⟨h1, h2, h3⟩ := ih q
      have hne := segPoints_ne_nil step hL
      refine ⟨List.append_ne_nil_of_left_ne_nil hne _, ?_, ?_⟩
      · intro h hh
        obtain ⟨x, xs, hxs⟩ := List.exists_cons_of_ne_nil hne
        rw [hxs, List.cons_append, List.head?_cons, Option.mem_def, Option.some_inj] at hh
        rw [← hh]
        exact segPoints_head step hL x (by rw [hxs, List.head?_cons]; rfl)
      · apply List.Chain'.append (segPoints_chain p q step hs) h3
        intro x hx y hy
        have hxq := segPoints_last_close p q step hs hL x hx
        rw [h2 y hy]
        exact hxq

theorem pdist_le_of_close {a b : Densify.DPt} {eps : ℝ} (heps : 0 ≤ eps)
    (hx : |a.1 - b.1| ≤ eps) (hy : |a.2.1 - b.2.1| ≤ eps) :
    Densify.pdist (Densify.pxy a) (Densify.pxy b) ≤ 2 * eps := by
  unfold Densify.pdist Densify.pxy
  dsimp only
  have h1 : (a.1 - b.1) ^ 2 ≤ eps ^ 2 := by
    rw [← sq_abs]
    exact pow_le_pow_left₀ (abs_nonneg _) hx 2
  have h2 : (a.2.1 - b.2.1) ^ 2 ≤ eps ^ 2 := by
    rw [← sq_abs]
    exact pow_le_pow_left₀ (abs_nonneg _) hy 2
  calc Real.sqrt ((a.1 - b.1) ^ 2 + (a.2.1 - b.2.1) ^ 2)
      ≤ Real.sqrt ((2 * eps) ^ 2) := Real.sqrt_le_sqrt (by nlinarith)
    _ = 2 * eps := Real.sqrt_sq (by linarith)

/-- Deduplication can widen a consecutive gap by at most the planar
diameter of the tolerance box, `2 * eps`. -/
theorem dedupAux_chain (eps step : ℝ) (heps : 0 ≤ eps) (rest : List Densify.DPt) :
    ∀ kept : Densify.DPt,
      (∀ h ∈ rest.head?,
        Densify.pdist (Densify.pxy kept) (Densify.pxy h) ≤ step + 2 * eps) →
      List.Chain' (fun a b => Densify.pdist (Densify.pxy a) (Densify.pxy b) ≤ step) rest →
      List.Chain' (fun a b => Densify.pdist (Densify.pxy a) (Densify.pxy b) ≤ step + 2 * eps)
        (kept :: Densify.dedupAux eps kept rest) := by
  induction rest with
  | nil =>
    intro kept _ _
    rw [Densify.dedupAux]
    exact List.chain'_singleton kept
  | cons q rest' ih =>
    intro kept hhead hchain
    rw [Densify.dedupAux]
    obtain ⟨hq, hchain'⟩ := List.chain'_cons'.mp hchain
    by_cases hfar : |kept.1 - q.1| > eps ∨ |kept.2.1 - q.2.1| > eps
    · rw [if_pos hfar]
      apply List.chain'_cons.mpr
      constructor
      · exact hhead q (by rw [List.head?_cons]; rfl)
      · exact ih q (fun h hh => (hq h hh).trans (by linarith)) hchain'
    · rw [if_neg hfar]
      push_neg at hfar
      apply ih kept ?_ hchain'
      intro h hh
      calc Densify.pdist (Densify.pxy kept) (Densify.pxy h)
          ≤ Densify.pdist (Densify.pxy kept) (Densify.pxy q) +
            Densify.pdist (Densify.pxy q) (Densify.pxy h) := pdist_triangle _ _ _
        _ ≤ 2 * eps + step := add_le_add (pdist_le_of_close heps hfar.1 hfar.2) (hq h hh)
        _ = step + 2 * eps := by ring

theorem dedupPoints_chain (eps step : ℝ) (heps : 0 ≤ eps) (l : List Densify.DPt)
    (h : List.Chain' (fun a b => Densify.pdist (Densify.pxy a) (Densify.pxy b) ≤ step) l) :
    List.Chain' (fun a b => Densify.pdist (Densify.pxy a) (Densify.pxy b) ≤ step + 2 * eps)
      (Densify.dedupPoints eps l) := by
  rcases l with _ | ⟨p, rest⟩
  · exact List.chain'_nil
  · obtain ⟨hq, hchain'⟩ := List.chain'_cons'.mp h
    exact dedupAux_chain eps step heps rest p
      (fun x hx => (hq x hx).trans (by linarith)) hchain'

theorem segLen_horiz (x0 x1 y : ℝ) (z0 z1 : Option ℝ) (h : x0 ≤ x1) :
    Densify.segLen (x0, y, z0) (x1, y, z1) = x1 - x0 := by
  unfold Densify.segLen
  dsimp only
  rw [show (x1 - x0) ^ 2 + (y - y) ^ 2 = (x1 - x0) ^ 2 by ring]
  exact Real.sqrt_sq (by linarith)

/-- C5 counterexample: the claim asserts consecutive points of the
*returned* sequence are at most `step` apart except possibly the final
closing segment; but on the polyline
`[(0,0), (1e-10,0), (1+1e-10,0), (2+1e-10,0)]` with `step = 1` the
dedup pass drops the emitted point `(1e-10, 0)` (within tolerance of
`(0,0)`), and the returned sequence's *first* gap — not its final one,
the sequence has three points and two gaps — is `1 + 1e-10 > step`. -/
theorem densify_spacing_counterexample :
    Densify.densify_polyline
        [((0 : ℝ), 0, none), (1 / 10 ^ 10, 0, none), (1 + 1 / 10 ^ 10, 0, none),
          (2 + 1 / 10 ^ 10, 0, none)] 1 =
      .ok [((0 : ℝ), 0, none), (1 + 1 / 10 ^ 10, 0, none),
        (2 + 1 / 10 ^ 10, 0, none)] ∧
    1 < Densify.pdist (Densify.pxy ((0 : ℝ), 0, none))
        (Densify.pxy ((1 + 1 / 10 ^ 10 : ℝ), 0, none)) := by
  constructor
  · unfold Densify.densify_polyline
    rw [if_neg (by simp), if_neg (by norm_num)]
    have hLab : Densify.segLen ((0 : ℝ), 0, none) ((1 / 10 ^ 10 : ℝ), 0, none) =
        1 / 10 ^ 10 := by
      rw [segLen_horiz 0 (1 / 10 ^ 10) 0 none none (by norm_num)]
      norm_num
    have hLbc : Densify.segLen ((1 / 10 ^ 10 : ℝ), 0, none)
        ((1 + 1 / 10 ^ 10 : ℝ), 0, none) = 1 := by
      rw [segLen_horiz (1 / 10 ^ 10) (1 + 1 / 10 ^ 10) 0 none none (by norm_num)]
      norm_num
    have hLcd : Densify.segLen ((1 + 1 / 10 ^ 10 : ℝ), 0, none)
        ((2 + 1 / 10 ^ 10 : ℝ), 0, none) = 1 := by
      rw [segLen_horiz (1 + 1 / 10 ^ 10) (2 + 1 / 10 ^ 10) 0 none none (by norm_num)]
      norm_num
    have hSab : Densify.segPoints ((0 : ℝ), 0, none) ((1 / 10 ^ 10 : ℝ), 0, none) 1 =
        [((0 : ℝ), 0, none)] :=
      segPoints_one (by rw [hLab]; norm_num)
        (segN_eq_one (by norm_num) (by rw [hLab]; norm_num)) rfl
    have hSbc : Densify.segPoints ((1 / 10 ^ 10 : ℝ), 0, none)
        ((1 + 1 / 10 ^ 10 : ℝ), 0, none) 1 = [((1 / 10 ^ 10 : ℝ), 0, none)] :=
      segPoints_one (by rw [hLbc]; norm_num)
        (segN_eq_one (by norm_num) (by rw [hLbc])) rfl
    have hScd : Densify.segPoints ((1 + 1 / 10 ^ 10 : ℝ), 0, none)
        ((2 + 1 / 10 ^ 10 : ℝ), 0, none) 1 = [((1 + 1 / 10 ^ 10 : ℝ), 0, none)] :=
      segPoints_one (by rw [hLcd]; norm_num)
        (segN_eq_one (by norm_num) (by rw [hLcd])) rfl
    have hemit : Densify.emitAll 1
        [((0 : ℝ), 0, none), (1 / 10 ^ 10, 0, none), (1 + 1 / 10 ^ 10, 0, none),
          (2 + 1 / 10 ^ 10, 0, none)] =
        [((0 : ℝ), 0, none), ((1 / 10 ^ 10 : ℝ), 0, none),
          ((1 + 1 / 10 ^ 10 : ℝ), 0, none)] := by
      rw [Densify.emitAll, Densify.emitAll, Densify.emitAll, Densify.emitAll,
        hSab, hSbc, hScd, List.append_nil]
      rfl
    rw [hemit]
    rw [show ([((0 : ℝ), 0, none), (1 / 10 ^ 10, 0, none), (1 + 1 / 10 ^ 10, 0, none),
        (2 + 1 / 10 ^ 10, 0, none)] : List Densify.DPt).getLastD (0, 0, none) =
        ((2 + 1 / 10 ^ 10 : ℝ), 0, none) by
      rw [List.getLastD_cons, List.getLastD_cons, List.getLastD_cons, List.getLastD_cons,
        List.getLastD_nil]]
    have hc1 : ¬(|(0 : ℝ) - 1 / 10 ^ 10| > Densify.EPS ∨
        |(0 : ℝ) - 0| > Densify.EPS) := by
      unfold Densify.EPS
      push_neg
      constructor
      · rw [zero_sub, abs_neg, abs_of_nonneg (by norm_num : (0 : ℝ) ≤ 1 / 10 ^ 10)]
        norm_num
      · rw [sub_self, abs_zero]
        norm_num
    have hc2 : |(0 : ℝ) - (1 + 1 / 10 ^ 10)| > Densify.EPS ∨
        |(0 : ℝ) - 0| > Densify.EPS := by
      left
      rw [zero_sub, abs_neg, abs_of_nonneg (by norm_num : (0 : ℝ) ≤ 1 + 1 / 10 ^ 10)]
      unfold Densify.EPS
      norm_num
    have hc3 : |(1 + 1 / 10 ^ 10 : ℝ) - (2 + 1 / 10 ^ 10)| > Densify.EPS ∨
        |(0 : ℝ) - 0| > Densify.EPS := by
      left
      rw [show (1 + 1 / 10 ^ 10 : ℝ) - (2 + 1 / 10 ^ 10) = -1 by ring, abs_neg, abs_one]
      unfold Densify.EPS
      norm_num
    have hd3 : Densify.dedupAux Densify.EPS ((1 + 1 / 10 ^ 10 : ℝ), 0, none)
        [((2 + 1 / 10 ^ 10 : ℝ), 0, none)] = [((2 + 1 / 10 ^ 10 : ℝ), 0, none)] := by
      show (if |(1 + 1 / 10 ^ 10 : ℝ) - (2 + 1 / 10 ^ 10)| > Densify.EPS ∨
          |(0 : ℝ) - 0| > Densify.EPS then
          ((2 + 1 / 10 ^ 10 : ℝ), 0, none) ::
            Densify.dedupAux Densify.EPS ((2 + 1 / 10 ^ 10 : ℝ), 0, none) []
        else Densify.dedupAux Densify.EPS ((1 + 1 / 10 ^ 10 : ℝ), 0, none) []) =
        [((2 + 1 / 10 ^ 10 : ℝ), 0, none)]
      rw [if_pos hc3]
      rfl
    have hd2 : Densify.dedupAux Densify.EPS ((0 : ℝ), 0, none)
        [((1 + 1 / 10 ^ 10 : ℝ), 0, none), ((2 + 1 / 10 ^ 10 : ℝ), 0, none)] =
        [((1 + 1 / 10 ^ 10 : ℝ), 0, none), ((2 + 1 / 10 ^ 10 : ℝ), 0, none)] := by
      show (if |(0 : ℝ) - (1 + 1 / 10 ^ 10)| > Densify.EPS ∨
          |(0 : ℝ) - 0| > Densify.EPS then
          ((1 + 1 / 10 ^ 10 : ℝ), 0, none) ::
            Densify.dedupAux Densify.EPS ((1 + 1 / 10 ^ 10 : ℝ), 0, none)
              [((2 + 1 / 10 ^ 10 : ℝ), 0, none)]
        else Densify.dedupAux Densify.EPS ((0 : ℝ), 0, none)
          [((2 + 1 / 10 ^ 10 : ℝ), 0, none)]) =
        [((1 + 1 / 10 ^ 10 : ℝ), 0, none), ((2 + 1 / 10 ^ 10 : ℝ), 0, none)]
      rw [if_pos hc2, hd3]
    have hd1 : Densify.dedupAux Densify.EPS ((0 : ℝ), 0, none)
        [((1 / 10 ^ 10 : ℝ), 0, none), ((1 + 1 / 10 ^ 10 : ℝ), 0, none),
          ((2 + 1 / 10 ^ 10 : ℝ), 0, none)] =
        [((1 + 1 / 10 ^ 10 : ℝ), 0, none), ((2 + 1 / 10 ^ 10 : ℝ), 0, none)] := by
      show (if |(0 : ℝ) - 1 / 10 ^ 10| > Densify.EPS ∨
          |(0 : ℝ) - 0| > Densify.EPS then
          ((1 / 10 ^ 10 : ℝ), 0, none) ::
            Densify.dedupAux Densify.EPS ((1 / 10 ^ 10 : ℝ), 0, none)
              [((1 + 1 / 10 ^ 10 : ℝ), 0, none), ((2 + 1 / 10 ^ 10 : ℝ), 0, none)]
        else Densify.dedupAux Densify.EPS ((0 : ℝ), 0, none)
          [((1 + 1 / 10 ^ 10 : ℝ), 0, none), ((2 + 1 / 10 ^ 10 : ℝ), 0, none)]) =
        [((1 + 1 / 10 ^ 10 : ℝ), 0, none), ((2 + 1 / 10 ^ 10 : ℝ), 0, none)]
      rw [if_neg hc1, hd2]
    show Except.ok (((0 : ℝ), 0, none) ::
      Densify.dedupAux Densify.EPS ((0 : ℝ), 0, none)
        [((1 / 10 ^ 10 : ℝ), 0, none), ((1 + 1 / 10 ^ 10 : ℝ), 0, none),
          ((2 + 1 / 10 ^ 10 : ℝ), 0, none)]) =
      Except.ok [((0 : ℝ), 0, none), ((1 + 1 / 10 ^ 10 : ℝ), 0, none),
        ((2 + 1 / 10 ^ 10 : ℝ), 0, none)]
    rw [hd1]
  · unfold Densify.pdist Densify.pxy
    dsimp only
    rw [show ((0 : ℝ) - (1 + 1 / 10 ^ 10)) ^ 2 + ((0 : ℝ) - 0) ^ 2 =
      (1 + 1 / 10 ^ 10) ^ 2 by ring, Real.sqrt_sq (by norm_num)]
    norm_num

/-- C5 (amended): for every polyline with ≥ 2 vertices and `step > 0`
the densifier succeeds; its result is the dedup pass applied to the
per-segment emission plus the appended final vertex; a zero-length
segment contributes nothing; a nonzero segment of length `L`
contributes exactly `n = ceil(L/step)` points at parameters `t = j/n`
(`z` interpolated only when both endpoint elevations are present, as
`interp` prescribes); and consecutive points of the returned sequence
are at most `step` apart *up to the dedup tolerance*: at most
`step + 2·1e-9` (dedup may drop points lying within `1e-9` per
coordinate of the last kept point, widening a gap by that much — the
unamended "at most `step` apart" is refuted below). -/
theorem densify_structure_and_spacing (vertices : List Densify.DPt) (step_m : ℝ)
    (h2 : 2 ≤ vertices.length) (hs : 0 < step_m) :
    ∃ l, Densify.densify_polyline vertices step_m = .ok l ∧
      l = Densify.dedupPoints Densify.EPS
        (Densify.emitAll step_m vertices ++ [vertices.getLastD (0, 0, none)]) ∧
      (∀ p q : Densify.DPt, Densify.segLen p q = 0 →
        Densify.segPoints p q step_m = []) ∧
      (∀ p q : Densify.DPt, Densify.segLen p q ≠ 0 →
        Densify.segPoints p q step_m =
          (List.range (⌈Densify.segLen p q / step_m⌉).toNat).map fun (j : ℕ) =>
            Densify.interp p q ((j : ℝ) / ((⌈Densify.segLen p q / step_m⌉).toNat : ℝ))) ∧
      List.Chain' (fun a b =>
        Densify.pdist (Densify.pxy a) (Densify.pxy b) ≤ step_m + 2 * Densify.EPS) l := by
  refine ⟨_, ?_, rfl, ?_, ?_, ?_⟩
  · unfold Densify.densify_polyline
    rw [if_neg (by omega), if_neg (not_le.mpr hs)]
  · intro p q h0
    unfold Densify.segPoints
    rw [if_pos h0]
  · intro p q h0
    have hpos : 0 < Densify.segLen p q :=
      lt_of_le_of_ne (segLen_nonneg p q) (Ne.symm h0)
    have hceil : 1 ≤ ⌈Densify.segLen p q / step_m⌉ :=
      Int.ceil_pos.mpr (div_pos hpos hs)
    have hN : Densify.segN p q step_m = (⌈Densify.segLen p q / step_m⌉).toNat := by
      unfold Densify.segN
      omega
    unfold Densify.segPoints
    rw [if_neg h0, hN]
  · have hvne : vertices ≠ [] := by
      intro hcon
      rw [hcon] at h2
      simp at h2
    obtain ⟨p, rest, hpr⟩ := List.exists_cons_of_ne_nil hvne
    have hchain : List.Chain'
        (fun a b => Densify.pdist (Densify.pxy a) (Densify.pxy b) ≤ step_m)
        (outAux step_m vertices) := by
      rw [hpr]
      exact (outAux_chain step_m hs rest p).2.2
    rw [← outAux_eq step_m vertices hvne]
    exact dedupPoints_chain _ _ (by unfold Densify.EPS; norm_num) _ hchain

/-- Witness for the amended C5 on a concrete 2-vertex polyline. -/
theorem densify_structure_and_spacing_witness :
    ∃ l, Densify.densify_polyline [((0 : ℝ), 0, none), (3, 0, none)] 1 = .ok l ∧
      l = Densify.dedupPoints Densify.EPS
        (Densify.emitAll 1 [((0 : ℝ), 0, none), (3, 0, none)] ++
          [([((0 : ℝ), 0, none), (3, 0, none)] : List Densify.DPt).getLastD (0, 0, none)]) ∧
      (∀ p q : Densify.DPt, Densify.segLen p q = 0 → Densify.segPoints p q 1 = []) ∧
      (∀ p q : Densify.DPt, Densify.segLen p q ≠ 0 →
        Densify.segPoints p q 1 =
          (List.range (⌈Densify.segLen p q / 1⌉).toNat).map fun (j : ℕ) =>
            Densify.interp p q ((j : ℝ) / ((⌈Densify.segLen p q / 1⌉).toNat : ℝ))) ∧
      List.Chain' (fun a b =>
        Densify.pdist (Densify.pxy a) (Densify.pxy b) ≤ 1 + 2 * Densify.EPS) l :=
  densify_structure_and_spacing [((0 : ℝ), 0, none), (3, 0, none)] 1
    (by simp) (by norm_num)

end CadToCloud
